import Mathlib

/-!
# Verification of the audio transcription client pipeline

Shallow embedding of the ordering-sensitive core of the repository
(`src/components/AudioRecorder.tsx`, `src/services/audioMerging.ts`):
the reorder buffer (`processOrderedTranscriptions` / `handleTranscription`),
the dispatch queue (`processQueue`), the pre-recording ring buffer
(`processor.port.onmessage`), the voice-stop finalization gate
(`onVoiceStop`), the WAV encoder (`encodeWAV`), the merge fallback
(`mergePreRecordingBufferWithRecordedAudio`) and session teardown
(`stopListening` / `cleanupAudioResources`).

JavaScript floats are modelled as rationals (ℚ), JS integers as ℤ/ℕ,
a JS `Map` as an insertion-ordered association list with unique-key
`set`/`delete` semantics, and `undefined`-able strings as `Option String`.
-/

namespace AgentTestClient

/-! ## The pending-transcriptions map (a JS `Map<number, AudioChunkMetadata>`)

`pendingTranscriptionsRef.current` in AudioRecorder.tsx is a JS `Map`.
We model it as an insertion-ordered association list:
`Map.get` finds the entry with the key, `Map.set` replaces the value in
place when the key is present (otherwise appends), and `Map.delete`
removes the entry with the key. -/

/-- `AudioChunkMetadata` from `src/types.ts`: the value stored in
`pendingTranscriptionsRef`.  `transcription?: string` becomes
`Option String` (`none` = the field is absent / the result failed). -/
structure AudioChunkMetadata where
  sequenceId : Nat
  timestamp : Nat
  isProcessed : Bool
  transcription : Option String
deriving DecidableEq, Repr

/-- JS truthiness of an optional string: `undefined` and `""` are falsy.
This is the test `if (nextChunk.transcription)` performs. -/
def truthyString : Option String → Bool
  | none => false
  | some t => !(t == "")

/-- The pending-transcriptions map. -/
abbrev PendingMap := List (Nat × AudioChunkMetadata)

/-- `Map.prototype.get` (returning `undefined` as `none`). -/
def mapGet (m : PendingMap) (k : Nat) : Option AudioChunkMetadata :=
  (m.find? (fun e => e.1 == k)).map Prod.snd

/-- `Map.prototype.set`: update in place if the key is present, append
otherwise (JS maps keep insertion order and hold each key once). -/
def mapSet (m : PendingMap) (k : Nat) (v : AudioChunkMetadata) : PendingMap :=
  if (m.find? (fun e => e.1 == k)).isSome then
    m.map (fun e => if e.1 == k then (k, v) else e)
  else
    m ++ [(k, v)]

/-- `Map.prototype.delete`: remove the entry holding key `k`. -/
def mapDelete (m : PendingMap) (k : Nat) : PendingMap :=
  m.filter (fun e => !(e.1 == k))

theorem find?_map_update (m : PendingMap) (k : Nat) (v : AudioChunkMetadata) :
    (m.map (fun e => if e.1 == k then (k, v) else e)).find? (fun e => e.1 == k)
      = (m.find? (fun e => e.1 == k)).map (fun _ => (k, v)) := by
  induction m with
  | nil => rfl
  | cons e rest ih =>
    rw [List.map_cons]
    by_cases he : (e.1 == k) = true
    · rw [if_pos he,
        @List.find?_cons_of_pos _ (fun e => e.1 == k) (k, v) _ (by simp),
        @List.find?_cons_of_pos _ (fun e => e.1 == k) e rest he]
      rfl
    · rw [if_neg he,
        @List.find?_cons_of_neg _ (fun e => e.1 == k) e _ (by simpa using he),
        @List.find?_cons_of_neg _ (fun e => e.1 == k) e rest (by simpa using he),
        ih]

theorem find?_map_update_ne (m : PendingMap) (k j : Nat) (v : AudioChunkMetadata)
    (h : j ≠ k) :
    (m.map (fun e => if e.1 == k then (k, v) else e)).find? (fun e => e.1 == j)
      = m.find? (fun e => e.1 == j) := by
  induction m with
  | nil => rfl
  | cons e rest ih =>
    rw [List.map_cons]
    by_cases he : (e.1 == k) = true
    · have hek : e.1 = k := by simpa using he
      have h1 : (k == j) = false := beq_eq_false_iff_ne.mpr (Ne.symm h)
      have h2 : (e.1 == j) = false := by rw [hek]; exact h1
      rw [if_pos he,
        @List.find?_cons_of_neg _ (fun e => e.1 == j) (k, v) _ (by simp [h1]),
        @List.find?_cons_of_neg _ (fun e => e.1 == j) e rest (by simp [h2]), ih]
    · rw [if_neg he]
      by_cases hej : (e.1 == j) = true
      · rw [@List.find?_cons_of_pos _ (fun e => e.1 == j) e _ hej,
          @List.find?_cons_of_pos _ (fun e => e.1 == j) e rest hej]
      · rw [@List.find?_cons_of_neg _ (fun e => e.1 == j) e _ hej,
          @List.find?_cons_of_neg _ (fun e => e.1 == j) e rest hej, ih]

theorem mapGet_set_self (m : PendingMap) (k : Nat) (v : AudioChunkMetadata) :
    mapGet (mapSet m k v) k = some v := by
  unfold mapGet mapSet
  by_cases h : (m.find? (fun e => e.1 == k)).isSome
  · rw [if_pos h, find?_map_update]
    obtain ⟨x, hx⟩ := Option.isSome_iff_exists.mp h
    rw [hx]; rfl
  · rw [if_neg h, List.find?_append, Option.not_isSome_iff_eq_none.mp h]
    simp [List.find?]

theorem mapGet_set_ne (m : PendingMap) (k j : Nat) (v : AudioChunkMetadata)
    (h : j ≠ k) : mapGet (mapSet m k v) j = mapGet m j := by
  unfold mapGet mapSet
  by_cases hs : (m.find? (fun e => e.1 == k)).isSome
  · rw [if_pos hs, find?_map_update_ne m k j v h]
  · rw [if_neg hs, List.find?_append]
    have hone : List.find? (fun e => e.1 == j) [(k, v)] = none := by
      simp [List.find?, beq_eq_false_iff_ne.mpr (Ne.symm h)]
    rw [hone]
    cases m.find? (fun e => e.1 == j) <;> rfl

theorem mapGet_delete_self (m : PendingMap) (k : Nat) :
    mapGet (mapDelete m k) k = none := by
  unfold mapGet mapDelete
  induction m with
  | nil => rfl
  | cons e rest ih =>
    rw [List.filter_cons]
    by_cases he : (e.1 == k) = true
    · rw [if_neg (by simp [he])]
      exact ih
    · rw [if_pos (by simp at he ⊢; exact he),
        @List.find?_cons_of_neg _ (fun e => e.1 == k) e _ he]
      exact ih

theorem mapGet_delete_ne (m : PendingMap) (k j : Nat) (h : j ≠ k) :
    mapGet (mapDelete m k) j = mapGet m j := by
  unfold mapGet mapDelete
  induction m with
  | nil => rfl
  | cons e rest ih =>
    by_cases he : (e.1 == k) = true
    · have hek : e.1 = k := by simpa using he
      have hej : (e.1 == j) = false := by
        rw [hek]; exact beq_eq_false_iff_ne.mpr (Ne.symm h)
      simpa [List.filter, he, List.find?, hej] using ih
    · simp only [Bool.not_eq_true] at he
      by_cases hej : (e.1 == j) = true
      · simp [List.filter, he, List.find?, hej]
      · simp only [Bool.not_eq_true] at hej
        simpa [List.filter, he, List.find?, hej] using ih

theorem mapDelete_length_lt (m : PendingMap) (k : Nat)
    (h : (mapGet m k).isSome) : (mapDelete m k).length < m.length := by
  unfold mapGet at h
  unfold mapDelete
  rw [List.length_filter_lt_length_iff_exists]
  cases hf : m.find? (fun e => e.1 == k) with
  | none => rw [hf] at h; simp at h
  | some e =>
    exact ⟨e, List.mem_of_find?_eq_some hf, by simp [List.find?_some hf]⟩

/-! ## The reorder buffer (AudioRecorder.tsx lines 323-335, 466-477)

State owned by the component: `pendingTranscriptionsRef` (the map),
`nextExpectedSequenceRef` (the release counter) and the `transcriptions`
React state (the ordered output text stream).  `emittedIds` is an
observation log: each time the loop body of `processOrderedTranscriptions`
resolves an entry, the sequence id it resolved — which is exactly the
current value of `nextExpectedSequenceRef`, the key used for the lookup —
is appended, whether or not text was emitted for it. -/

structure ReorderState where
  pending : PendingMap
  nextExpected : Nat
  transcriptions : List String
  emittedIds : List Nat
deriving DecidableEq, Repr

/-- The reorder-buffer state at the start of a listening session
(`pendingTranscriptionsRef.current.clear()`, `nextExpectedSequenceRef.current = 0`,
`setTranscriptions([])`). -/
def initialReorderState : ReorderState := ⟨[], 0, [], []⟩

/-- `processOrderedTranscriptions` (AudioRecorder.tsx 323-335):

```
while (pending.has(nextExpectedSequenceRef.current)) {
  const nextChunk = pending.get(nextExpectedSequenceRef.current)!;
  if (nextChunk.transcription) {
    setTranscriptions((prev) => [...prev, nextChunk.transcription!]);
  }
  pending.delete(nextExpectedSequenceRef.current);
  nextExpectedSequenceRef.current++;
}
```

The `if (nextChunk.transcription)` test is JS truthiness: both an absent
and an empty transcription are skipped without emitting text.
`stepResolve` is one iteration of the loop body, applied to the chunk
found under the current `nextExpectedSequenceRef` value. -/
def stepResolve (s : ReorderState) (nextChunk : AudioChunkMetadata) : ReorderState :=
  { pending := mapDelete s.pending s.nextExpected
    nextExpected := s.nextExpected + 1
    transcriptions :=
      if truthyString nextChunk.transcription then
        s.transcriptions ++ [nextChunk.transcription.getD ""]
      else
        s.transcriptions
    emittedIds := s.emittedIds ++ [s.nextExpected] }

@[simp] theorem stepResolve_pending (s : ReorderState) (nc : AudioChunkMetadata) :
    (stepResolve s nc).pending = mapDelete s.pending s.nextExpected := rfl

@[simp] theorem stepResolve_nextExpected (s : ReorderState) (nc : AudioChunkMetadata) :
    (stepResolve s nc).nextExpected = s.nextExpected + 1 := rfl

@[simp] theorem stepResolve_emittedIds (s : ReorderState) (nc : AudioChunkMetadata) :
    (stepResolve s nc).emittedIds = s.emittedIds ++ [s.nextExpected] := rfl

theorem stepResolve_transcriptions (s : ReorderState) (nc : AudioChunkMetadata) :
    (stepResolve s nc).transcriptions =
      if truthyString nc.transcription then
        s.transcriptions ++ [nc.transcription.getD ""]
      else
        s.transcriptions := rfl

theorem stepResolve_length_lt (s : ReorderState) (nc : AudioChunkMetadata)
    (h : (mapGet s.pending s.nextExpected).isSome) :
    (stepResolve s nc).pending.length < s.pending.length :=
  mapDelete_length_lt _ _ h

/-- The `while (pending.has(...))` loop of `processOrderedTranscriptions`. -/
def processOrderedTranscriptions (s : ReorderState) : ReorderState :=
  match _heq : mapGet s.pending s.nextExpected with
  | none => s
  | some nextChunk => processOrderedTranscriptions (stepResolve s nextChunk)
termination_by s.pending.length
decreasing_by
  exact stepResolve_length_lt _ _ (by rw [_heq]; rfl)

theorem processOrdered_of_get_none (s : ReorderState)
    (h : mapGet s.pending s.nextExpected = none) :
    processOrderedTranscriptions s = s := by
  rw [processOrderedTranscriptions]
  split
  · rfl
  · simp_all

theorem processOrdered_of_get_some (s : ReorderState) (nc : AudioChunkMetadata)
    (h : mapGet s.pending s.nextExpected = some nc) :
    processOrderedTranscriptions s
      = processOrderedTranscriptions (stepResolve s nc) := by
  rw [processOrderedTranscriptions]
  split
  · simp_all
  · rename_i nc2 hnc2
    rw [h] at hnc2
    injection hnc2 with hnc2
    rw [hnc2]

/-- The success branch of the `processQueue` acknowledgement callback
(AudioRecorder.tsx 263-280): store the metadata for the chunk's sequence
id in the pending map, then run the ordered release loop. -/
def recordTranscriptionResult (s : ReorderState) (id ts : Nat)
    (tx : Option String) : ReorderState :=
  processOrderedTranscriptions
    { s with pending := mapSet s.pending id ⟨id, ts, true, tx⟩ }

/-- `handleTranscription` (AudioRecorder.tsx 467-477): the socket
`transcription` event handler records a result only when
`response.success && response.transcription` is truthy, then runs the
ordered release loop. -/
def handleTranscription (s : ReorderState) (success : Bool) (id ts : Nat)
    (tx : Option String) : ReorderState :=
  if success && truthyString tx then recordTranscriptionResult s id ts tx else s

/-- Driving the reorder buffer from a fresh session with an arbitrary
sequence of recorded results `(sequenceId, transcription)`, in arbitrary
arrival order (timestamps are irrelevant to ordering and set to 0). -/
def driveReorder (results : List (Nat × Option String)) : ReorderState :=
  results.foldl (fun s r => recordTranscriptionResult s r.1 0 r.2)
    initialReorderState

theorem processOrdered_nextExpected_le (s : ReorderState) :
    s.nextExpected ≤ (processOrderedTranscriptions s).nextExpected := by
  generalize hn : s.pending.length = n
  induction n using Nat.strong_induction_on generalizing s with
  | _ n ih =>
    cases hx : mapGet s.pending s.nextExpected with
    | none => rw [processOrdered_of_get_none s hx]
    | some nc =>
      rw [processOrdered_of_get_some s nc hx]
      have hlt : (stepResolve s nc).pending.length < n := by
        rw [← hn]; exact stepResolve_length_lt s nc (by rw [hx]; rfl)
      have h2 := ih _ hlt (stepResolve s nc) rfl
      simp only [stepResolve_nextExpected] at h2
      omega

theorem processOrdered_get_none (s : ReorderState) (j : Nat)
    (h : mapGet s.pending j = none) :
    mapGet (processOrderedTranscriptions s).pending j = none := by
  generalize hn : s.pending.length = n
  induction n using Nat.strong_induction_on generalizing s with
  | _ n ih =>
    cases hx : mapGet s.pending s.nextExpected with
    | none => rw [processOrdered_of_get_none s hx]; exact h
    | some nc =>
      rw [processOrdered_of_get_some s nc hx]
      have hlt : (stepResolve s nc).pending.length < n := by
        rw [← hn]; exact stepResolve_length_lt s nc (by rw [hx]; rfl)
      apply ih _ hlt _ _ rfl
      simp only [stepResolve_pending]
      by_cases hj : j = s.nextExpected
      · subst hj; exact mapGet_delete_self _ _
      · rw [mapGet_delete_ne _ _ _ hj]; exact h

theorem processOrdered_emittedIds_range (s : ReorderState)
    (h : s.emittedIds = List.range s.nextExpected) :
    (processOrderedTranscriptions s).emittedIds
      = List.range (processOrderedTranscriptions s).nextExpected := by
  generalize hn : s.pending.length = n
  induction n using Nat.strong_induction_on generalizing s with
  | _ n ih =>
    cases hx : mapGet s.pending s.nextExpected with
    | none => rw [processOrdered_of_get_none s hx]; exact h
    | some nc =>
      rw [processOrdered_of_get_some s nc hx]
      have hlt : (stepResolve s nc).pending.length < n := by
        rw [← hn]; exact stepResolve_length_lt s nc (by rw [hx]; rfl)
      apply ih _ hlt _ _ rfl
      simp only [stepResolve_emittedIds, stepResolve_nextExpected, h]
      exact (List.range_succ s.nextExpected).symm

theorem processOrdered_resolved (s : ReorderState) (j : Nat)
    (h1 : s.nextExpected ≤ j)
    (h2 : j < (processOrderedTranscriptions s).nextExpected) :
    mapGet (processOrderedTranscriptions s).pending j = none := by
  generalize hn : s.pending.length = n
  induction n using Nat.strong_induction_on generalizing s with
  | _ n ih =>
    cases hx : mapGet s.pending s.nextExpected with
    | none =>
      rw [processOrdered_of_get_none s hx] at h2 ⊢
      omega
    | some nc =>
      rw [processOrdered_of_get_some s nc hx] at h2 ⊢
      have hlt : (stepResolve s nc).pending.length < n := by
        rw [← hn]; exact stepResolve_length_lt s nc (by rw [hx]; rfl)
      by_cases hj : j = s.nextExpected
      · subst hj
        apply processOrdered_get_none
        simp only [stepResolve_pending]
        exact mapGet_delete_self _ _
      · exact ih _ hlt _ (by simp only [stepResolve_nextExpected]; omega) h2 rfl

theorem processOrdered_advances (s : ReorderState) (n : Nat)
    (h : ∀ i, s.nextExpected ≤ i → i ≤ n → (mapGet s.pending i).isSome) :
    n < (processOrderedTranscriptions s).nextExpected := by
  generalize hl : s.pending.length = l
  induction l using Nat.strong_induction_on generalizing s with
  | _ l ih =>
    cases hx : mapGet s.pending s.nextExpected with
    | none =>
      rw [processOrdered_of_get_none s hx]
      by_contra hc
      push_neg at hc
      have := h s.nextExpected (Nat.le_refl _) hc
      rw [hx] at this
      simp at this
    | some nc =>
      rw [processOrdered_of_get_some s nc hx]
      have hlt : (stepResolve s nc).pending.length < l := by
        rw [← hl]; exact stepResolve_length_lt s nc (by rw [hx]; rfl)
      by_cases hcase : n < s.nextExpected + 1
      · have hmono := processOrdered_nextExpected_le (stepResolve s nc)
        simp only [stepResolve_nextExpected] at hmono
        omega
      · apply ih _ hlt
        · intro i hi1 hi2
          simp only [stepResolve_pending] at hi1 ⊢
          simp only [stepResolve_nextExpected] at hi1
          rw [mapGet_delete_ne _ _ _ (by omega)]
          exact h i (by omega) hi2
        · rfl

theorem processOrdered_keys_lt (s : ReorderState) (N : Nat)
    (hk : ∀ j, (mapGet s.pending j).isSome → j < N)
    (hn : s.nextExpected ≤ N) :
    (processOrderedTranscriptions s).nextExpected ≤ N
    ∧ ∀ j, (mapGet (processOrderedTranscriptions s).pending j).isSome → j < N := by
  generalize hl : s.pending.length = l
  induction l using Nat.strong_induction_on generalizing s with
  | _ l ih =>
    cases hx : mapGet s.pending s.nextExpected with
    | none => rw [processOrdered_of_get_none s hx]; exact ⟨hn, hk⟩
    | some nc =>
      rw [processOrdered_of_get_some s nc hx]
      have hlt : (stepResolve s nc).pending.length < l := by
        rw [← hl]; exact stepResolve_length_lt s nc (by rw [hx]; rfl)
      apply ih _ hlt
      · intro j hj
        simp only [stepResolve_pending] at hj
        by_cases hjx : j = s.nextExpected
        · subst hjx; rw [mapGet_delete_self] at hj; simp at hj
        · rw [mapGet_delete_ne _ _ _ hjx] at hj; exact hk j hj
      · have : s.nextExpected < N := hk s.nextExpected (by rw [hx]; rfl)
        simp only [stepResolve_nextExpected]
        omega
      · rfl

theorem driveReorder_emittedIds (results : List (Nat × Option String)) :
    (driveReorder results).emittedIds
      = List.range (driveReorder results).nextExpected := by
  suffices h : ∀ s : ReorderState, s.emittedIds = List.range s.nextExpected →
      (results.foldl (fun s r => recordTranscriptionResult s r.1 0 r.2) s).emittedIds
        = List.range
          (results.foldl (fun s r => recordTranscriptionResult s r.1 0 r.2) s).nextExpected by
    exact h initialReorderState rfl
  induction results with
  | nil => intro s hs; exact hs
  | cons r rest ih =>
    intro s hs
    simp only [List.foldl_cons]
    apply ih
    exact processOrdered_emittedIds_range _ hs

/-- C1: for every set of enqueued chunks and every order in which their
transcription results are recorded into the reorder buffer, the resolution
log of `processOrderedTranscriptions` is exactly `0, 1, ..., m-1` (where `m`
is the final value of `nextExpectedSequenceRef`), hence strictly ascending:
the result for sequence id `k` is never emitted before every id below `k`
has been emitted or skipped.  This covers in particular every permutation
of results for ids `0..n-1`. -/
theorem c1_reorder_emits_in_ascending_order (results : List (Nat × Option String)) :
    (driveReorder results).emittedIds = List.range (driveReorder results).nextExpected
    ∧ List.Pairwise (· < ·) (driveReorder results).emittedIds := by
  refine ⟨driveReorder_emittedIds results, ?_⟩
  rw [driveReorder_emittedIds results]
  exact List.pairwise_lt_range _

/-- C2: a result recorded at sequence id `k` with no transcription text
(the field absent or the empty string, both falsy) is treated as resolved:
it is removed from the pending map, the release counter advances past `k`,
it does not block emission of ids `k+1..n` once those are resolved, and it
alone contributes no text to the output stream. -/
theorem c2_failed_result_does_not_stall (s : ReorderState) (k n : Nat)
    (tx : Option String) (htx : truthyString tx = false)
    (hk : s.nextExpected = k) :
    mapGet (recordTranscriptionResult s k 0 tx).pending k = none
    ∧ k < (recordTranscriptionResult s k 0 tx).nextExpected
    ∧ ((∀ i, k < i → i ≤ n → (mapGet s.pending i).isSome) →
        n < (recordTranscriptionResult s k 0 tx).nextExpected)
    ∧ ((∀ i, k < i → mapGet s.pending i = none) →
        (recordTranscriptionResult s k 0 tx).transcriptions = s.transcriptions) := by
  have hget : mapGet (mapSet s.pending k ⟨k, 0, true, tx⟩) k
      = some ⟨k, 0, true, tx⟩ := mapGet_set_self _ _ _
  have hadv : k < (recordTranscriptionResult s k 0 tx).nextExpected := by
    unfold recordTranscriptionResult
    apply processOrdered_advances
    intro i hi1 hi2
    have hik : i = k := by
      simp only at hi1
      omega
    subst hik
    rw [hget]
    rfl
  refine ⟨?_, hadv, ?_, ?_⟩
  · unfold recordTranscriptionResult at hadv ⊢
    apply processOrdered_resolved
    · simp only
      omega
    · exact hadv
  · intro hall
    unfold recordTranscriptionResult
    apply processOrdered_advances
    intro i hi1 hi2
    simp only at hi1 ⊢
    by_cases hik : i = k
    · subst hik; rw [hget]; rfl
    · rw [mapGet_set_ne _ _ _ _ hik]
      exact hall i (by omega) hi2
  · intro hnone
    unfold recordTranscriptionResult
    rw [processOrdered_of_get_some _ ⟨k, 0, true, tx⟩ (by simpa [hk] using hget)]
    rw [processOrdered_of_get_none]
    · rw [stepResolve_transcriptions]
      simp [htx]
    · simp only [stepResolve_pending, stepResolve_nextExpected, hk]
      rw [mapGet_delete_ne _ _ _ (by omega), mapGet_set_ne _ _ _ _ (by omega)]
      exact hnone (k + 1) (by omega)

/-- Witness for C2 at a concrete state: `nextExpected = 0`, a successful
result for id 1 already pending, and an empty-text (falsy) result recorded
at id 0; the failed id is resolved, the counter passes both ids, and no
text is lost. -/
theorem c2_failed_result_does_not_stall_witness :
    truthyString (some "") = false
    ∧ (⟨[(1, ⟨1, 7, true, some "b"⟩)], 0, [], []⟩ : ReorderState).nextExpected = 0
    ∧ (mapGet (recordTranscriptionResult ⟨[(1, ⟨1, 7, true, some "b"⟩)], 0, [], []⟩
          0 0 (some "")).pending 0 = none
      ∧ 0 < (recordTranscriptionResult ⟨[(1, ⟨1, 7, true, some "b"⟩)], 0, [], []⟩
          0 0 (some "")).nextExpected
      ∧ ((∀ i, 0 < i → i ≤ 1 →
            (mapGet (⟨[(1, ⟨1, 7, true, some "b"⟩)], 0, [], []⟩ : ReorderState).pending i).isSome) →
          1 < (recordTranscriptionResult ⟨[(1, ⟨1, 7, true, some "b"⟩)], 0, [], []⟩
            0 0 (some "")).nextExpected)
      ∧ ((∀ i, 0 < i →
            mapGet (⟨[(1, ⟨1, 7, true, some "b"⟩)], 0, [], []⟩ : ReorderState).pending i = none) →
          (recordTranscriptionResult ⟨[(1, ⟨1, 7, true, some "b"⟩)], 0, [], []⟩
            0 0 (some "")).transcriptions
            = (⟨[(1, ⟨1, 7, true, some "b"⟩)], 0, [], []⟩ : ReorderState).transcriptions)) :=
  ⟨by decide, rfl,
    c2_failed_result_does_not_stall ⟨[(1, ⟨1, 7, true, some "b"⟩)], 0, [], []⟩ 0 1
      (some "") (by decide) rfl⟩

/-! ## Session counters (AudioRecorder.tsx lines 41-43, 167, 466-477)

`sequenceCounterRef` is incremented by `onVoiceStop` when a finalized
segment is pushed onto the queue (`const currentSequence =
sequenceCounterRef.current++`); `nextExpectedSequenceRef` is incremented
by the release loop.  Results reach the pending map on two paths: the
`processQueue` acknowledgement callback and the socket `transcription`
event; on both paths the server is reporting on a chunk this client
previously sent, so the reported sequence id is one the session has
already assigned (`id < sequenceCounterRef.current`). -/

structure SessionState where
  reorder : ReorderState
  nextSequenceId : Nat
deriving DecidableEq, Repr

def initialSessionState : SessionState := ⟨initialReorderState, 0⟩

/-- The three kinds of steps that touch the two counters during a
listening session. -/
inductive SessionEvent where
  | enqueue
  | ackSuccess (id ts : Nat) (tx : Option String)
  | transcriptionEvent (success : Bool) (id ts : Nat) (tx : Option String)
deriving DecidableEq, Repr

def stepSession (s : SessionState) : SessionEvent → SessionState
  | .enqueue => { s with nextSequenceId := s.nextSequenceId + 1 }
  | .ackSuccess id ts tx =>
      { s with reorder := recordTranscriptionResult s.reorder id ts tx }
  | .transcriptionEvent success id ts tx =>
      { s with reorder := handleTranscription s.reorder success id ts tx }

def runSession (events : List SessionEvent) : SessionState :=
  events.foldl stepSession initialSessionState

/-- An event trace is well formed when every server-reported result names
a sequence id the session had already assigned at that point. -/
def eventsWellFormed : Nat → List SessionEvent → Bool
  | _, [] => true
  | n, .enqueue :: rest => eventsWellFormed (n + 1) rest
  | n, .ackSuccess id _ _ :: rest => id < n && eventsWellFormed n rest
  | n, .transcriptionEvent _ id _ _ :: rest => id < n && eventsWellFormed n rest

/-- The inductive invariant for C8: the release counter is bounded by the
assignment counter, and every pending sequence id was assigned. -/
def sessionInv (s : SessionState) : Prop :=
  s.reorder.nextExpected ≤ s.nextSequenceId
  ∧ ∀ j, (mapGet s.reorder.pending j).isSome → j < s.nextSequenceId

theorem stepSession_inv (s : SessionState) (e : SessionEvent)
    (hinv : sessionInv s)
    (hid : ∀ id ts tx, (e = .ackSuccess id ts tx
        → id < s.nextSequenceId)
      ∧ ∀ success, e = .transcriptionEvent success id ts tx
        → id < s.nextSequenceId) :
    sessionInv (stepSession s e) := by
  obtain ⟨h1, h2⟩ := hinv
  cases e with
  | enqueue =>
    refine ⟨by simp [stepSession]; omega, ?_⟩
    intro j hj
    simp only [stepSession] at hj ⊢
    have := h2 j hj
    omega
  | ackSuccess id ts tx =>
    have hidlt : id < s.nextSequenceId := (hid id ts tx).1 rfl
    simp only [stepSession, sessionInv, recordTranscriptionResult]
    have hkeys : ∀ j, (mapGet (mapSet s.reorder.pending id ⟨id, ts, true, tx⟩) j).isSome
        → j < s.nextSequenceId := by
      intro j hj
      by_cases hji : j = id
      · omega
      · rw [mapGet_set_ne _ _ _ _ hji] at hj
        exact h2 j hj
    have := processOrdered_keys_lt
      { s.reorder with pending := mapSet s.reorder.pending id ⟨id, ts, true, tx⟩ }
      s.nextSequenceId hkeys h1
    exact ⟨this.1, this.2⟩
  | transcriptionEvent success id ts tx =>
    have hidlt : id < s.nextSequenceId := ((hid id ts tx).2 success) rfl
    simp only [stepSession, sessionInv, handleTranscription]
    by_cases hcond : (success && truthyString tx) = true
    · rw [if_pos hcond]
      simp only [recordTranscriptionResult]
      have hkeys : ∀ j, (mapGet (mapSet s.reorder.pending id ⟨id, ts, true, tx⟩) j).isSome
          → j < s.nextSequenceId := by
        intro j hj
        by_cases hji : j = id
        · omega
        · rw [mapGet_set_ne _ _ _ _ hji] at hj
          exact h2 j hj
      have := processOrdered_keys_lt
        { s.reorder with pending := mapSet s.reorder.pending id ⟨id, ts, true, tx⟩ }
        s.nextSequenceId hkeys h1
      exact ⟨this.1, this.2⟩
    · rw [if_neg hcond]
      exact ⟨h1, h2⟩

theorem runSession_inv_aux (events : List SessionEvent) (s : SessionState)
    (hwf : eventsWellFormed s.nextSequenceId events = true)
    (hinv : sessionInv s) : sessionInv (events.foldl stepSession s) := by
  induction events generalizing s with
  | nil => exact hinv
  | cons e rest ih =>
    cases e with
    | enqueue =>
      simp only [List.foldl_cons]
      apply ih
      · simpa [eventsWellFormed, stepSession] using hwf
      · exact stepSession_inv s .enqueue hinv (by intro id ts tx; exact ⟨by simp, by simp⟩)
    | ackSuccess id ts tx =>
      simp only [eventsWellFormed, Bool.and_eq_true, decide_eq_true_eq] at hwf
      simp only [List.foldl_cons]
      apply ih
      · simpa [stepSession] using hwf.2
      · apply stepSession_inv s _ hinv
        intro id2 ts2 tx2
        constructor
        · intro he
          injection he with e1 e2 e3
          omega
        · intro success he
          exact absurd he (by simp)
    | transcriptionEvent success id ts tx =>
      simp only [eventsWellFormed, Bool.and_eq_true, decide_eq_true_eq] at hwf
      simp only [List.foldl_cons]
      apply ih
      · simpa [stepSession] using hwf.2
      · apply stepSession_inv s _ hinv
        intro id2 ts2 tx2
        constructor
        · intro he
          exact absurd he (by simp)
        · intro success2 he
          injection he with e1 e2 e3 e4
          omega

/-- C8: under every interleaving of enqueues, acknowledgement-callback
results and inbound `transcription` socket events in which the server
reports only on chunks this session assigned, the release counter
`nextExpectedSequenceRef` never overtakes the assignment counter
`sequenceCounterRef`. -/
theorem c8_release_counter_never_overtakes (events : List SessionEvent)
    (hwf : eventsWellFormed 0 events = true) :
    (runSession events).reorder.nextExpected ≤ (runSession events).nextSequenceId := by
  have := runSession_inv_aux events initialSessionState hwf
    ⟨Nat.le_refl 0, by intro j hj; simp [initialSessionState, initialReorderState, mapGet] at hj⟩
  exact this.1

/-- Witness for C8 on a concrete well-formed trace: two enqueues, an
out-of-order socket result for id 1 and an acknowledgement for id 0. -/
theorem c8_release_counter_never_overtakes_witness :
    eventsWellFormed 0
        [SessionEvent.enqueue, SessionEvent.enqueue,
          SessionEvent.transcriptionEvent true 1 5 (some "b"),
          SessionEvent.ackSuccess 0 3 (some "a")] = true
    ∧ (runSession
        [SessionEvent.enqueue, SessionEvent.enqueue,
          SessionEvent.transcriptionEvent true 1 5 (some "b"),
          SessionEvent.ackSuccess 0 3 (some "a")]).reorder.nextExpected
      ≤ (runSession
        [SessionEvent.enqueue, SessionEvent.enqueue,
          SessionEvent.transcriptionEvent true 1 5 (some "b"),
          SessionEvent.ackSuccess 0 3 (some "a")]).nextSequenceId :=
  ⟨by decide, c8_release_counter_never_overtakes _ (by decide)⟩

/-! ## Pre-recording ring buffer (AudioRecorder.tsx 47-48, 72-80)

```
const BUFFER_DURATION = 200; // 100 millisecond buffer
...
processor.port.onmessage = (e) => {
  if (!isVoiceActiveRef.current) {
    PRE_RECORDING_BUFFER.push(new Float32Array(e.data));
    if (PRE_RECORDING_BUFFER.length > BUFFER_DURATION / (4096 / audioContext.sampleRate)) {
      PRE_RECORDING_BUFFER.shift();
    }
  }
};
```

`BUFFER_DURATION` is a count of milliseconds, while `4096 /
audioContext.sampleRate` is a frame duration in seconds.  Frames are
opaque here (their content is irrelevant to the eviction bound). -/

def BUFFER_DURATION : ℚ := 200

/-- One `onmessage` delivery while no voice is active: append the frame,
then shift the oldest frame out when the length exceeds
`BUFFER_DURATION / (4096 / sampleRate)`. -/
def ringBufferPush (bufferDuration sampleRate : ℚ) (buf : List α) (frame : α) :
    List α :=
  let buf2 := buf ++ [frame]
  if bufferDuration / (4096 / sampleRate) < (buf2.length : ℚ) then buf2.tail
  else buf2

/-- Deliver `n` consecutive frames to an initially empty pre-recording
buffer. -/
def pushFrames (bufferDuration sampleRate : ℚ) (n : Nat) : List Nat :=
  (List.range n).foldl (ringBufferPush bufferDuration sampleRate) []

/-- The duration in milliseconds of one 4096-sample frame. -/
def frameDurationMs (sampleRate : ℚ) : ℚ := 4096 / sampleRate * 1000

theorem pushFrames_succ (D sr : ℚ) (n : Nat) :
    pushFrames D sr (n + 1) = ringBufferPush D sr (pushFrames D sr n) n := by
  unfold pushFrames
  rw [List.range_succ, List.foldl_append]
  rfl

/-- As long as the frame count stays at or below the code's cap
`D / (4096 / sr)`, no frame is ever evicted. -/
theorem pushFrames_length_of_le (D sr : ℚ) (n : Nat)
    (h : (n : ℚ) ≤ D / (4096 / sr)) : (pushFrames D sr n).length = n := by
  induction n with
  | zero => rfl
  | succ m ih =>
    have hm : ((m : ℚ)) ≤ D / (4096 / sr) := by
      refine le_trans ?_ h
      push_cast
      linarith
    have hlen : (pushFrames D sr m).length = m := ih hm
    rw [pushFrames_succ]
    simp only [ringBufferPush]
    rw [if_neg]
    · simp [hlen]
    · push_neg
      simp only [List.length_append, hlen, List.length_singleton]
      push_cast at h ⊢
      linarith

/-- C3: evaluation of the eviction bound at the claim's scenario.  With a
1000 ms window and 4096-sample frames at 48000 Hz, after 20 pushes the
buffer still holds all 20 frames — 1706.67 ms of audio, exceeding the
1000 ms window, where the claim expects at most about 12 frames (the
intended cap `1000 / frameDurationMs` is below 12) — because the code
divides a window in milliseconds by a frame duration in seconds, making
the frame cap 1000 times too large.  The same happens with the code's own
`BUFFER_DURATION = 200`. -/
theorem c3_ring_buffer_retains_beyond_window :
    (pushFrames 1000 48000 20).length = 20
    ∧ (1000 : ℚ) < 20 * frameDurationMs 48000
    ∧ (1000 : ℚ) / frameDurationMs 48000 < 12
    ∧ (pushFrames BUFFER_DURATION 48000 20).length = 20
    ∧ BUFFER_DURATION < 20 * frameDurationMs 48000 := by
  refine ⟨pushFrames_length_of_le _ _ _ (by norm_num),
    by norm_num [frameDurationMs],
    by norm_num [frameDurationMs],
    pushFrames_length_of_le _ _ _ (by norm_num [BUFFER_DURATION]),
    by norm_num [BUFFER_DURATION, frameDurationMs]⟩

/-! ## Voice-stop finalization gate (AudioRecorder.tsx 111-182, 199)

`onVoiceStop` computes `duration = voiceEndTime - voiceStartTime` (measured
after the 300 ms trailing-capture delay) and discards the segment when
`duration < 150`; otherwise it assembles the chunk and pushes it onto
`audioQueueRef` with `sequenceCounterRef.current++` as its sequence id.
The VAD option `minSpeechDuration: 250` (line 199) plays no part in this
gate. -/

/-- `vadOptions.minSpeechDuration` (AudioRecorder.tsx 199). -/
def vadMinSpeechDuration : Nat := 250

structure SegmentQueueState where
  queue : List Nat
  sequenceCounter : Nat
deriving DecidableEq, Repr

/-- The enqueue-or-discard decision of `onVoiceStop` as a function of the
measured duration: below 150 ms the recorder is stopped and reset with
nothing enqueued; otherwise the merged chunk is pushed with the next
sequence id. -/
def onVoiceStopFinalize (durationMs : Nat) (s : SegmentQueueState) :
    SegmentQueueState :=
  if durationMs < 150 then s
  else { queue := s.queue ++ [s.sequenceCounter]
         sequenceCounter := s.sequenceCounter + 1 }

/-- C4 counterexample: a finalized segment whose measured duration (200 ms)
is below `minSpeechDuration` (250 ms) is nevertheless enqueued — the queue
grows — because the code gates on the hard-coded constant 150, not on
`vadOptions.minSpeechDuration`. -/
theorem c4_counterexample_below_min_speech_enqueued :
    200 < vadMinSpeechDuration
    ∧ (onVoiceStopFinalize 200 ⟨[], 0⟩).queue.length ≠ ([] : List Nat).length := by
  decide

/-- C4 (amended): for every finalized voice segment whose measured duration
is below the hard-coded 150 ms cutoff, nothing is enqueued (the queue and
the sequence counter are untouched) and the segment is discarded silently. -/
theorem c4_short_segment_discarded (d : Nat) (s : SegmentQueueState)
    (h : d < 150) : onVoiceStopFinalize d s = s := by
  unfold onVoiceStopFinalize
  rw [if_pos h]

/-- Witness for the amended C4 at duration 100 ms. -/
theorem c4_short_segment_discarded_witness :
    100 < 150
    ∧ onVoiceStopFinalize 100 ⟨[3], 4⟩ = (⟨[3], 4⟩ : SegmentQueueState) :=
  ⟨by decide, c4_short_segment_discarded 100 ⟨[3], 4⟩ (by decide)⟩

/-! ## Dispatch queue: one invocation of processQueue (AudioRecorder.tsx 215-320)

One invocation of `processQueue` runs `while (audioQueueRef.current.length > 0)`:
it reads the head chunk, emits it on the socket and waits for the
acknowledgement.  On a successful acknowledgement it stores the result,
runs the ordered release loop and shifts the head; on a rejected
acknowledgement (`response.success === false`) or on the 5-second timeout
it sets the error state and `break`s out of the loop without shifting.
The server's behaviour is an oracle from sequence id to outcome. -/

/-- `QueuedAudioChunk` from `src/types.ts` (the opaque semantic context is
omitted; nothing in the queue logic reads it). -/
structure QueuedAudioChunk where
  audio : List Nat
  timestamp : Nat
  sequenceId : Nat
deriving DecidableEq, Repr

/-- The acknowledgement outcome for one emitted chunk: a success response
(with optional transcription), an explicit failure response (with optional
error text), or no response within the 5-second timeout. -/
inductive ServerResponse where
  | success (transcription : Option String)
  | failure (errorText : Option String)
  | timeout
deriving DecidableEq, Repr

/-- `response.error || 'Unknown error occurred'` (AudioRecorder.tsx 288):
JS `||` falls through on `undefined` and on the empty string. -/
def errMessage : Option String → String
  | none => "Unknown error occurred"
  | some e => if e = "" then "Unknown error occurred" else e

structure ProcessQueueResult where
  queue : List QueuedAudioChunk
  reorder : ReorderState
  sentLog : List Nat
  errorState : Option String
deriving DecidableEq, Repr

/-- The `while` loop of one `processQueue` invocation, with `sentLog`
recording every `socket.emit('audioDataPartial', ...)` in order. -/
def processQueueRun (oracle : Nat → ServerResponse) :
    List QueuedAudioChunk → ReorderState → List Nat → ProcessQueueResult
  | [], r, sent => ⟨[], r, sent, none⟩
  | c :: rest, r, sent =>
    match oracle c.sequenceId with
    | .success tx =>
        processQueueRun oracle rest
          (recordTranscriptionResult r c.sequenceId c.timestamp tx)
          (sent ++ [c.sequenceId])
    | .failure e => ⟨c :: rest, r, sent ++ [c.sequenceId], some (errMessage e)⟩
    | .timeout => ⟨c :: rest, r, sent ++ [c.sequenceId], some "Server timeout"⟩

/-- C6: when the head chunk's send times out or is acknowledged as failed,
the invocation halts (nothing after the head is ever sent), a structured
error is surfaced, no retry happens (the head was sent exactly once), the
queue is left intact with the failed chunk still at the head, and the
reorder state is untouched. -/
theorem c6_queue_halts_and_preserves_state_on_failure
    (oracle : Nat → ServerResponse) (c : QueuedAudioChunk)
    (rest : List QueuedAudioChunk) (r : ReorderState)
    (h : oracle c.sequenceId = .timeout
      ∨ ∃ e, oracle c.sequenceId = .failure e) :
    (processQueueRun oracle (c :: rest) r []).queue = c :: rest
    ∧ ((processQueueRun oracle (c :: rest) r []).errorState).isSome
    ∧ (processQueueRun oracle (c :: rest) r []).sentLog = [c.sequenceId]
    ∧ (processQueueRun oracle (c :: rest) r []).reorder = r := by
  rcases h with h | ⟨e, h⟩ <;>
    simp [processQueueRun, h]

/-- Witness for C6 with a concrete queue of two chunks whose head times
out. -/
theorem c6_queue_halts_and_preserves_state_on_failure_witness :
    ((fun _ => ServerResponse.timeout) (0 : Nat) = ServerResponse.timeout
      ∨ ∃ e, (fun _ => ServerResponse.timeout) (0 : Nat) = ServerResponse.failure e)
    ∧ ((processQueueRun (fun _ => ServerResponse.timeout)
          [⟨[1, 2], 10, 0⟩, ⟨[3], 11, 1⟩] initialReorderState []).queue
        = [⟨[1, 2], 10, 0⟩, ⟨[3], 11, 1⟩]
      ∧ ((processQueueRun (fun _ => ServerResponse.timeout)
          [⟨[1, 2], 10, 0⟩, ⟨[3], 11, 1⟩] initialReorderState []).errorState).isSome
      ∧ (processQueueRun (fun _ => ServerResponse.timeout)
          [⟨[1, 2], 10, 0⟩, ⟨[3], 11, 1⟩] initialReorderState []).sentLog = [0]
      ∧ (processQueueRun (fun _ => ServerResponse.timeout)
          [⟨[1, 2], 10, 0⟩, ⟨[3], 11, 1⟩] initialReorderState []).reorder
        = initialReorderState) :=
  ⟨Or.inl rfl,
    c6_queue_halts_and_preserves_state_on_failure (fun _ => ServerResponse.timeout)
      ⟨[1, 2], 10, 0⟩ [⟨[3], 11, 1⟩] initialReorderState (Or.inl rfl)⟩

/-! ## Dispatch queue: overlapping invocations (AudioRecorder.tsx 24, 215-241)

`processQueue` guards re-entry with the React state `isProcessing`:

```
if (isProcessing || audioQueueRef.current.length === 0) { return; }
setIsProcessing(true);
```

`isProcessing` is a `useState` value.  The VAD callbacks (and hence the
`processQueue` they invoke) are registered once, inside `initializeVAD`,
in the closure of the render in which listening started; a `useState`
value captured by a closure is immutable, so every VAD-triggered
invocation of `processQueue` reads the `isProcessing` value of that
render — `false` — no matter how often `setIsProcessing(true)` has been
called since.  The guard therefore only checks queue non-emptiness for
VAD-triggered invocations.  The model makes the captured snapshot an
explicit argument. -/

structure DispatchState where
  queue : List Nat
  isProcessingState : Bool
  inFlight : List Nat
  sentLog : List Nat
deriving DecidableEq, Repr

/-- The guard `if (isProcessing || audioQueueRef.current.length === 0)
return`, reading the invoking closure's captured `isProcessing` snapshot. -/
def processQueueGuard (snapshot : Bool) (s : DispatchState) : Bool :=
  !snapshot && !s.queue.isEmpty

/-- The synchronous prefix of one `processQueue` invocation: run the guard
with the closure's snapshot and, if it passes, schedule
`setIsProcessing(true)` (which updates the state cell, not the snapshot). -/
def processQueueEnter (snapshot : Bool) (s : DispatchState) : DispatchState :=
  if processQueueGuard snapshot s then { s with isProcessingState := true } else s

/-- Reaching the `socket.emit` for the head chunk: the chunk is now in
flight; it is not removed from the queue until its acknowledgement
arrives. -/
def processQueueSendHead (s : DispatchState) : DispatchState :=
  match s.queue with
  | [] => s
  | c :: _ => { s with inFlight := s.inFlight ++ [c], sentLog := s.sentLog ++ [c] }

/-- `audioQueueRef.current.push(...)` from `onVoiceStop`. -/
def enqueueChunk (s : DispatchState) (id : Nat) : DispatchState :=
  { s with queue := s.queue ++ [id] }

/-- The `isProcessing` value captured by the render in which
`initializeVAD` registered the VAD callbacks: listening starts with no
processing under way, so the snapshot is `false` for the whole session. -/
def vadClosureSnapshot : Bool := false

/-- The racing execution: chunk 0 is enqueued and invocation A of
`processQueue` (from the first `onVoiceStop`) passes the guard and emits
chunk 0, then — while A is still awaiting the acknowledgement — a second
utterance enqueues chunk 1 and invocation B (from the second
`onVoiceStop`, same stale closure) runs its guard and emits the head. -/
def doubleInvocationTrace : DispatchState :=
  let s0 : DispatchState := ⟨[0], false, [], []⟩
  let s1 := processQueueSendHead (processQueueEnter vadClosureSnapshot s0)
  let s2 := enqueueChunk s1 1
  processQueueSendHead (processQueueEnter vadClosureSnapshot s2)

/-- C5: reachable double in-flight send.  In the racing execution the
second invocation's guard still passes (its closure's `isProcessing`
snapshot is the initial `false`), so chunk 0 is emitted a second time
while the first emit is still unacknowledged: two sends are in flight at
once — and they are the same chunk, so send order no longer matches
enqueue order either. -/
theorem c5_two_sends_in_flight :
    doubleInvocationTrace.inFlight = [0, 0]
    ∧ doubleInvocationTrace.sentLog = [0, 0]
    ∧ doubleInvocationTrace.queue = [0, 1]
    ∧ processQueueGuard vadClosureSnapshot
        (enqueueChunk (processQueueSendHead
          (processQueueEnter vadClosureSnapshot ⟨[0], false, [], []⟩)) 1) = true := by
  decide

/-! ## WAV encoding (audioMerging.ts 77-119)

```
let s = Math.max(-1, Math.min(1, samples[i]));
s = s < 0 ? s * 0x8000 : s * 0x7fff;
view.setInt16(offset, s, true);
```

`DataView.setInt16` applies ECMAScript ToInt16: truncate the float toward
zero, then wrap modulo 2^16 into [-32768, 32767]. -/

/-- Truncation toward zero of a rational (ECMAScript ToIntegerOrInfinity). -/
def jsTrunc (q : ℚ) : ℤ := if q < 0 then -(⌊-q⌋) else ⌊q⌋

/-- ECMAScript ToInt16 wrap-around applied by `DataView.setInt16`. -/
def toInt16 (n : ℤ) : ℤ := (n + 32768) % 65536 - 32768

/-- One sample of `encodeWAV`'s PCM loop (audioMerging.ts 110-116). -/
def encodeSample (x : ℚ) : ℤ :=
  let s := max (-1) (min 1 x)
  toInt16 (jsTrunc (if s < 0 then s * 32768 else s * 32767))

/-- The WAV blob produced by `encodeWAV`, with the 44-byte header
abstracted into its declared fields: `audioFormat` is the format tag
written at offset 20, `numChannels` at offset 22, `sampleRate` at offset
24, `bitsPerSample` at offset 34, and `data` the little-endian int16
samples following the header. -/
structure WavBlob where
  audioFormat : Nat
  numChannels : Nat
  sampleRate : ℚ
  bitsPerSample : Nat
  data : List ℤ
deriving DecidableEq, Repr

/-- `encodeWAV` (audioMerging.ts 77-119): PCM format tag 1, mono, 16 bits
per sample, followed by the encoded samples. -/
def encodeWAV (samples : List ℚ) (sampleRate : ℚ) : WavBlob :=
  ⟨1, 1, sampleRate, 16, samples.map encodeSample⟩

/-- Modelled from the spec: the decoding half of the round-trip property
is not in this repository (decoding happens in `decodeAudioData` or in the
remote service).  Standard 16-bit PCM decoding — and what Web Audio
implementations do — maps the stored integer `v` to the float
`v / 0x8000`. -/
def decodeSample (v : ℤ) : ℚ := (v : ℚ) / 32768

/-- Decoding the data samples of a WAV blob. -/
def decodeWAV (w : WavBlob) : List ℚ := w.data.map decodeSample

theorem jsTrunc_of_nonneg (q : ℚ) (h : 0 ≤ q) : jsTrunc q = ⌊q⌋ := by
  unfold jsTrunc
  rw [if_neg (by linarith)]

theorem jsTrunc_of_neg (q : ℚ) (h : q < 0) : jsTrunc q = -(⌊-q⌋) := by
  unfold jsTrunc
  rw [if_pos h]

theorem toInt16_of_bounds (n : ℤ) (h1 : -32768 ≤ n) (h2 : n ≤ 32767) :
    toInt16 n = n := by
  unfold toInt16
  rw [Int.emod_eq_of_lt (by omega) (by omega)]
  omega

/-- Round-trip error of a single in-range sample: at most two quantization
steps (the positive half-range is scaled by 0x7FFF on encode but divided
by 0x8000 on decode; the negative half-range round-trips within one
step). -/
theorem sample_roundtrip_bound (x : ℚ) (h1 : -1 ≤ x) (h2 : x ≤ 1) :
    |decodeSample (encodeSample x) - x| ≤ 2 / 32768 := by
  have hs : max (-1) (min 1 x) = x := by
    rw [min_eq_right h2, max_eq_right h1]
  simp only [encodeSample, hs]
  by_cases hx : x < 0
  · rw [if_pos hx, jsTrunc_of_neg _ (by nlinarith)]
    have hfl_le : ((⌊-(x * 32768)⌋ : ℚ)) ≤ -(x * 32768) := Int.floor_le _
    have hfl_gt : -(x * 32768) < ⌊-(x * 32768)⌋ + 1 := Int.lt_floor_add_one _
    have hb1 : (0 : ℤ) ≤ ⌊-(x * 32768)⌋ := by
      rw [Int.le_floor]
      push_cast
      nlinarith
    have hb2 : ⌊-(x * 32768)⌋ ≤ 32768 := by
      have hq : -(x * 32768) ≤ 32768 := by nlinarith
      exact_mod_cast le_trans hfl_le hq
    rw [toInt16_of_bounds _ (by omega) (by omega)]
    unfold decodeSample
    rw [abs_sub_le_iff]
    push_cast
    constructor <;> linarith
  · push_neg at hx
    rw [if_neg (by linarith), jsTrunc_of_nonneg _ (by nlinarith)]
    have hfl_le : ((⌊x * 32767⌋ : ℚ)) ≤ x * 32767 := Int.floor_le _
    have hfl_gt : x * 32767 < ⌊x * 32767⌋ + 1 := Int.lt_floor_add_one _
    have hb1 : (0 : ℤ) ≤ ⌊x * 32767⌋ := by
      rw [Int.le_floor]
      have hcast : (((0 : ℤ) : ℚ)) = 0 := by norm_num
      rw [hcast]
      nlinarith
    have hb2 : ⌊x * 32767⌋ ≤ 32767 := by
      have hq : x * 32767 ≤ 32767 := by nlinarith
      exact_mod_cast le_trans hfl_le hq
    rw [toInt16_of_bounds _ (by omega) (by omega)]
    unfold decodeSample
    rw [abs_sub_le_iff]
    constructor <;> linarith

/-- C7 counterexample: at the in-range sample 0.9999, the encode/decode
round trip misses by more than 1/32768 (the error is 17232/327680000,
about 1.72/32768), so the claimed per-sample bound of one quantization
step is false: the positive side scales by 0x7FFF but decodes by 1/0x8000. -/
theorem c7_counterexample_roundtrip_exceeds_one_quantum :
    1 / 32768 < |decodeSample (encodeSample (9999 / 10000)) - 9999 / 10000| := by
  have henc : encodeSample (9999 / 10000) = 32763 := by
    have hs : max (-1 : ℚ) (min 1 (9999 / 10000)) = 9999 / 10000 := by
      rw [min_eq_right (by norm_num), max_eq_right (by norm_num)]
    simp only [encodeSample, hs]
    rw [if_neg (by norm_num), jsTrunc_of_nonneg _ (by norm_num)]
    have hfl : ⌊(9999 / 10000 : ℚ) * 32767⌋ = 32763 := by
      rw [Int.floor_eq_iff]
      constructor <;> norm_num
    rw [hfl]
    rfl
  rw [henc]
  unfold decodeSample
  rw [abs_of_neg (by norm_num)]
  norm_num

/-- C7 (amended): encoding a sequence of in-range float samples through
the WAV container (clamp, scale by 0x7FFF / 0x8000, write little-endian
signed 16-bit PCM under a header declaring PCM, 1 channel and 16-bit
depth) and decoding it back reproduces each sample within two 16-bit
quantization steps, 2/32768 per sample (for negative samples the error is
below 1/32768; for positive samples it can exceed 1/32768 but never
2/32768). -/
theorem c7_wav_roundtrip_within_two_quanta (samples : List ℚ) (sr : ℚ)
    (h : ∀ x ∈ samples, -1 ≤ x ∧ x ≤ 1) :
    (encodeWAV samples sr).audioFormat = 1
    ∧ (encodeWAV samples sr).numChannels = 1
    ∧ (encodeWAV samples sr).bitsPerSample = 16
    ∧ List.Forall₂ (fun y x => |y - x| ≤ 2 / 32768)
        (decodeWAV (encodeWAV samples sr)) samples := by
  refine ⟨rfl, rfl, rfl, ?_⟩
  unfold decodeWAV encodeWAV
  simp only [List.map_map]
  induction samples with
  | nil => constructor
  | cons a rest ih =>
    simp only [List.map_cons, Function.comp]
    constructor
    · exact sample_roundtrip_bound a (h a (by simp)).1 (h a (by simp)).2
    · exact ih (fun x hx => h x (by simp [hx]))

/-- Witness for the amended C7 on a concrete two-sample sequence. -/
theorem c7_wav_roundtrip_within_two_quanta_witness :
    (∀ x ∈ [(1 : ℚ) / 2, -(1 / 3)], -1 ≤ x ∧ x ≤ 1)
    ∧ ((encodeWAV [(1 : ℚ) / 2, -(1 / 3)] 48000).audioFormat = 1
      ∧ (encodeWAV [(1 : ℚ) / 2, -(1 / 3)] 48000).numChannels = 1
      ∧ (encodeWAV [(1 : ℚ) / 2, -(1 / 3)] 48000).bitsPerSample = 16
      ∧ List.Forall₂ (fun y x => |y - x| ≤ 2 / 32768)
          (decodeWAV (encodeWAV [(1 : ℚ) / 2, -(1 / 3)] 48000))
          [(1 : ℚ) / 2, -(1 / 3)]) :=
  ⟨by norm_num,
    c7_wav_roundtrip_within_two_quanta [(1 : ℚ) / 2, -(1 / 3)] 48000 (by norm_num)⟩

/-! ## Merging the pre-roll with the recorded blob (audioMerging.ts 19-68)

`mergePreRecordingBufferWithRecordedAudio` needs the `AudioContext` only
to decode the recorded blob; blobs are opaque byte containers here, and a
context is its `decodeAudioData` capability, which yields the mono
channel samples and the decoded buffer's sample rate or fails on
malformed input. -/

structure RecordedBlob where
  bytes : List Nat
deriving DecidableEq, Repr

structure AudioContextModel where
  decodeAudioData : RecordedBlob → Except String (List ℚ × ℚ)

/-- The merge either falls back to the untouched recorded blob or
produces a freshly encoded WAV blob. -/
inductive MergeOutput where
  | originalBlob (b : RecordedBlob)
  | wavBlob (w : WavBlob)
deriving DecidableEq, Repr

/-- `flattenFloat32Arrays` (audioMerging.ts 54-68): concatenate the
buffered frames into one continuous sample sequence. -/
def flattenFloat32Arrays (chunks : List (List ℚ)) : List ℚ := chunks.flatten

/-- `mergePreRecordingBufferWithRecordedAudio` (audioMerging.ts 19-49):
without a context, return the original blob (fallback, no error raised);
otherwise flatten the pre-roll, decode the recorded blob, concatenate and
re-encode as WAV at the decoded buffer's sample rate.  A rejected decode
rejects the merge promise, hence `Except`. -/
def mergePreRecordingBufferWithRecordedAudio (preBufferFrames : List (List ℚ))
    (recordedBlob : RecordedBlob) (audioContext : Option AudioContextModel) :
    Except String MergeOutput :=
  match audioContext with
  | none => .ok (.originalBlob recordedBlob)
  | some ctx =>
    match ctx.decodeAudioData recordedBlob with
    | .error e => .error e
    | .ok (recordedSamples, sampleRate) =>
        .ok (.wavBlob (encodeWAV
          (flattenFloat32Arrays preBufferFrames ++ recordedSamples) sampleRate))

/-- C10: when the segment assembler is handed a null `AudioContext`,
`mergePreRecordingBufferWithRecordedAudio` returns the recorded blob
unchanged — the pre-roll frames are silently dropped rather than
prepended, and no error is raised or surfaced to the caller. -/
theorem c10_merge_without_context_returns_original
    (preBufferFrames : List (List ℚ)) (recordedBlob : RecordedBlob) :
    mergePreRecordingBufferWithRecordedAudio preBufferFrames recordedBlob none
      = Except.ok (MergeOutput.originalBlob recordedBlob) := rfl

/-! ## Session teardown (AudioRecorder.tsx 393-464)

`stopListening` lowers the UI flags, destroys the VAD instance if
present, and — when a recorder exists — stops it, emits `audioComplete`
on the socket from the stop callback and runs `cleanupAudioResources`
(which nulls the recorder); without a recorder it just runs the cleanup.
The recorder's stop callback is modelled as completing before the call
returns, so consecutive invocations are sequential.  `released` logs each
actual resource release (`vadRef.current.destroy()`,
`audioContextRef.current.close()`, stopping the media tracks), and `wire`
logs socket emissions in order. -/

inductive WireMessage where
  | audioData (sequenceId : Nat)
  | audioComplete
deriving DecidableEq, Repr

structure TeardownState where
  isListening : Bool
  isVoiceActive : Bool
  vad : Bool
  audioContext : Bool
  recorder : Bool
  queue : List Nat
  pending : PendingMap
  nextExpected : Nat
  transcriptions : List String
  wire : List WireMessage
  released : List String
deriving DecidableEq, Repr

/-- `cleanupAudioResources` (AudioRecorder.tsx 421-464). -/
def cleanupAudioResources (s : TeardownState) : TeardownState :=
  let s1 := { s with isVoiceActive := false }
  let s2 := if s1.vad then
      { s1 with vad := false, released := s1.released ++ ["vad"] }
    else s1
  let s3 := if s2.audioContext then
      { s2 with audioContext := false, released := s2.released ++ ["audioContext"] }
    else s2
  let s4 := { s3 with queue := [] }
  let s5 := if s4.recorder then
      { s4 with recorder := false, released := s4.released ++ ["mediaTracks"] }
    else s4
  { s5 with pending := [], nextExpected := 0, transcriptions := [] }

/-- `stopListening` (AudioRecorder.tsx 393-419). -/
def stopListening (s : TeardownState) : TeardownState :=
  let s1 := { s with isListening := false, isVoiceActive := false }
  let s2 := if s1.vad then
      { s1 with vad := false, released := s1.released ++ ["vad"] }
    else s1
  if s2.recorder then
    cleanupAudioResources { s2 with wire := s2.wire ++ [WireMessage.audioComplete] }
  else
    cleanupAudioResources s2

/-- C9: session teardown is idempotent — a second `stopListening` is a
no-op, so no resource is released twice and `audioComplete` is emitted at
most once per session; the single `audioComplete` is appended after every
message already on the wire, in particular after the last chunk of the
session. -/
theorem c9_stop_listening_idempotent (s : TeardownState) :
    stopListening (stopListening s) = stopListening s
    ∧ (stopListening s).wire
      = s.wire ++ (if s.recorder then [WireMessage.audioComplete] else [])
    ∧ (stopListening (stopListening s)).released = (stopListening s).released
    ∧ (stopListening (stopListening s)).wire.count WireMessage.audioComplete
      ≤ s.wire.count WireMessage.audioComplete + 1 := by
  obtain ⟨il, iv, v, a, r, q, p, n, t, w, rel⟩ := s
  have hmain : stopListening (stopListening ⟨il, iv, v, a, r, q, p, n, t, w, rel⟩)
      = stopListening ⟨il, iv, v, a, r, q, p, n, t, w, rel⟩ := by
    cases v <;> cases a <;> cases r <;> rfl
  have hwire : (stopListening ⟨il, iv, v, a, r, q, p, n, t, w, rel⟩).wire
      = w ++ (if r then [WireMessage.audioComplete] else []) := by
    cases v <;> cases a <;> cases r <;> simp [stopListening, cleanupAudioResources]
  refine ⟨hmain, hwire, by rw [hmain], ?_⟩
  rw [hmain, hwire, List.count_append]
  cases r <;> simp

end AgentTestClient
